import Mathlib

/-!
Verification development for the play-ruby core: the in-memory virtual
filesystem (`WASIFs` in src/ruby.worker.ts), the source splitter
(src/split-file.ts), and the execution harness (`RubyWorker.run`).

JavaScript strings are modelled as `List Char`, byte buffers as `List Nat`,
and JS `Map` / plain-object mappings as association lists with unique keys,
where `mset` mirrors `Map.set` (replace in place, else append) and `mget`
mirrors `Map.get`.  Because the worker mutates `Directory` objects shared by
reference between clones, directory/file inodes live in an explicit heap of
addressed cells; every operation threads the heap and returns it together
with the (possibly mutated) filesystem and an `Except` mirroring thrown
JS exceptions (which do not roll back prior mutations).
-/

abbrev Str := List Char

abbrev Bytes := List Nat

/-- Association-list read, mirroring JS `Map.get` / object property read. -/
def mget {κ β : Type} [DecidableEq κ] : List (κ × β) → κ → Option β
  | [], _ => none
  | (k, v) :: rest, x => if k = x then some v else mget rest x

/-- Association-list write, mirroring JS `Map.set` / object property
assignment: replaces the value in place when the key exists, else appends. -/
def mset {κ β : Type} [DecidableEq κ] : List (κ × β) → κ → β → List (κ × β)
  | [], x, v => [(x, v)]
  | (k, w) :: rest, x, v => if k = x then (x, v) :: rest else (k, w) :: mset rest x v

theorem mget_mset_self {κ β : Type} [DecidableEq κ] (m : List (κ × β)) (k : κ) (v : β) :
    mget (mset m k v) k = some v := by
  induction m with
  | nil => simp [mget, mset]
  | cons p rest ih =>
    obtain ⟨k', v'⟩ := p
    by_cases h : k' = k <;> simp [mget, mset, h, ih]

theorem mget_mset_ne {κ β : Type} [DecidableEq κ] (m : List (κ × β)) (k x : κ) (v : β)
    (hne : k ≠ x) : mget (mset m k v) x = mget m x := by
  induction m with
  | nil => simp [mget, mset, hne]
  | cons p rest ih =>
    obtain ⟨k', v'⟩ := p
    by_cases h : k' = k
    · subst h
      simp [mget, mset, hne]
    · simp [mget, mset, h, ih]

theorem mget_mem {κ β : Type} [DecidableEq κ] {m : List (κ × β)} {k : κ} {v : β}
    (h : mget m k = some v) : (k, v) ∈ m := by
  induction m with
  | nil => simp [mget] at h
  | cons p rest ih =>
    obtain ⟨k', v'⟩ := p
    by_cases hk : k' = k
    · subst hk
      simp [mget] at h
      simp [h]
    · simp [mget, hk] at h
      exact List.mem_cons_of_mem _ (ih h)

/-! ## Source splitter (src/split-file.ts) -/

/-- One section of the split input: its content and the 0-indexed line number
of its `#---` marker in the original combined buffer. -/
structure FileEntry where
  content : Str
  sourceLine : Nat
deriving DecidableEq, Repr

/-- Characters the JavaScript regex metacharacter `.` does not match. -/
def lineTerm (c : Char) : Bool :=
  c = '\n' || c = '\r' || c = '\u2028' || c = '\u2029'

/-- `line.match(/^#--- (.+)$/)`: succeeds iff the line starts with the
five characters `#--- ` followed by at least one character, none of which is
a line terminator; the captured group is everything after the prefix. -/
def markerName (line : Str) : Option Str :=
  if "#--- ".toList.isPrefixOf line && decide (5 < line.length)
      && (line.drop 5).all (fun c => !lineTerm c) then
    some (line.drop 5)
  else
    none

def nonMarker (line : Str) : Bool := (markerName line).isNone

/-- Append each line followed by a newline, as the splitter's
`currentContent += line + "\n"` accumulates. -/
def joinNl (ls : List Str) : Str := (ls.map (fun l => l ++ ['\n'])).flatten

/-- The splitter's loop state: the mutable locals of `splitFile`. -/
structure SplitSt where
  files : List (Str × FileEntry)
  currentFile : Option Str
  currentSourceLine : Nat
  currentContent : Str
  remaining : Str
deriving DecidableEq, Repr

/-- One iteration of the `for (const [i, line] of lines.entries())` loop. -/
def stepLine (st : SplitSt) (i : Nat) (line : Str) : SplitSt :=
  match markerName line with
  | some name =>
    let st1 :=
      match st.currentFile with
      | none => { st with remaining := st.currentContent }
      | some f => { st with files := mset st.files f ⟨st.currentContent, st.currentSourceLine⟩ }
    { st1 with currentFile := some name, currentSourceLine := i, currentContent := [] }
  | none => { st with currentContent := st.currentContent ++ line ++ ['\n'] }

/-- The whole loop, indexing lines from `i`. -/
def runSplit : List Str → Nat → SplitSt → SplitSt
  | [], _, st => st
  | line :: rest, i, st => runSplit rest (i + 1) (stepLine st i line)

/-- The epilogue after the loop: flush the open section (or set `remaining`)
and return the result pair. -/
def finishSplit (st : SplitSt) : List (Str × FileEntry) × Str :=
  match st.currentFile with
  | none => (st.files, st.currentContent)
  | some f => (mset st.files f ⟨st.currentContent, st.currentSourceLine⟩, st.remaining)

/-- `splitFile` from src/split-file.ts. -/
def splitFile (content : Str) : List (Str × FileEntry) × Str :=
  finishSplit (runSplit (content.splitOn '\n') 0 ⟨[], none, 0, [], []⟩)

/-- Modelled from the spec (§4.3): the sections of the input, in marker
order.  A line matching the marker pattern opens a section named by the
marker whose `sourceLine` is the 0-indexed line number of the marker and
whose content is all lines strictly after the marker up to the next marker
or end of input, each terminated with a newline. -/
def sectionsFrom (i : Nat) : List Str → List (Str × FileEntry)
  | [] => []
  | line :: rest =>
    match markerName line with
    | some name => (name, ⟨joinNl (rest.takeWhile nonMarker), i⟩) :: sectionsFrom (i + 1) rest
    | none => sectionsFrom (i + 1) rest

theorem joinNl_nil : joinNl [] = [] := rfl

theorem joinNl_cons (l : Str) (ls : List Str) :
    joinNl (l :: ls) = (l ++ ['\n']) ++ joinNl ls := by
  simp [joinNl]

/-- While a section is open (`currentFile = some f`), the rest of the loop
flushes `f` with the upcoming non-marker lines appended and then processes
the remaining sections; `remaining` is no longer touched. -/
theorem runSplit_open (lines : List Str) :
    ∀ (i : Nat) (files : List (Str × FileEntry)) (f : Str) (sl : Nat) (cc rem : Str),
    finishSplit (runSplit lines i ⟨files, some f, sl, cc, rem⟩) =
      ((sectionsFrom i lines).foldl (fun m s => mset m s.1 s.2)
        (mset files f ⟨cc ++ joinNl (lines.takeWhile nonMarker), sl⟩), rem) := by
  induction lines with
  | nil =>
    intro i files f sl cc rem
    simp [runSplit, finishSplit, sectionsFrom, joinNl]
  | cons line rest ih =>
    intro i files f sl cc rem
    cases h : markerName line with
    | none =>
      have hnm : nonMarker line = true := by simp [nonMarker, h]
      simp only [runSplit, stepLine, h]
      rw [ih]
      simp [sectionsFrom, h, List.takeWhile_cons, hnm, joinNl_cons]
    | some name =>
      have hnm : nonMarker line = false := by simp [nonMarker, h]
      simp only [runSplit, stepLine, h]
      rw [ih]
      simp [sectionsFrom, h, List.takeWhile_cons, hnm, joinNl_nil]

/-- Before the first marker (`currentFile = none`), the loop accumulates the
leading non-marker lines into what becomes `remaining`, and then processes
all sections. -/
theorem runSplit_closed (lines : List Str) :
    ∀ (i : Nat) (files : List (Str × FileEntry)) (sl : Nat) (cc rem : Str),
    finishSplit (runSplit lines i ⟨files, none, sl, cc, rem⟩) =
      ((sectionsFrom i lines).foldl (fun m s => mset m s.1 s.2) files,
        cc ++ joinNl (lines.takeWhile nonMarker)) := by
  induction lines with
  | nil =>
    intro i files sl cc rem
    simp [runSplit, finishSplit, sectionsFrom, joinNl]
  | cons line rest ih =>
    intro i files sl cc rem
    cases h : markerName line with
    | none =>
      have hnm : nonMarker line = true := by simp [nonMarker, h]
      simp only [runSplit, stepLine, h]
      rw [ih]
      simp [sectionsFrom, h, List.takeWhile_cons, hnm, joinNl_cons]
    | some name =>
      have hnm : nonMarker line = false := by simp [nonMarker, h]
      simp only [runSplit, stepLine, h]
      rw [runSplit_open]
      simp [sectionsFrom, h, List.takeWhile_cons, hnm, joinNl_nil]

/-- Master characterization: `splitFile` returns the fold of last-write-wins
insertions of the spec-level sections, and the leading non-marker lines
(newline-terminated) as `remaining`. -/
theorem splitFile_eq_sections (content : Str) :
    splitFile content =
      ((sectionsFrom 0 (content.splitOn '\n')).foldl (fun m s => mset m s.1 s.2) [],
        joinNl ((content.splitOn '\n').takeWhile nonMarker)) := by
  have h := runSplit_closed (content.splitOn '\n') 0 [] 0 [] []
  simpa [splitFile] using h

/-- Claim C5: every marker line opens a section whose content is exactly the
lines strictly after the marker up to the next marker or end of input, each
terminated with a newline, with `sourceLine` the 0-indexed line number of the
marker (the `files` mapping is the last-write-wins fold of those sections);
in particular the three-section example splits as specified with
`remaining = ""`. -/
theorem claim_C5_marker_sections :
    (∀ content : Str, (splitFile content).1 =
      (sectionsFrom 0 (content.splitOn '\n')).foldl (fun m s => mset m s.1 s.2) []) ∧
    splitFile "#--- foo\nfoo\n#--- bar\nbar\n#--- baz\nbaz".toList =
      ([("foo".toList, ⟨"foo\n".toList, 0⟩), ("bar".toList, ⟨"bar\n".toList, 2⟩),
        ("baz".toList, ⟨"baz\n".toList, 4⟩)], []) := by
  constructor
  · intro content
    rw [splitFile_eq_sections]
  · decide

theorem sectionsFrom_eq_nil (lines : List Str) (i : Nat)
    (h : ∀ l ∈ lines, markerName l = none) : sectionsFrom i lines = [] := by
  induction lines generalizing i with
  | nil => rfl
  | cons line rest ih =>
    have h0 : markerName line = none := h line (List.mem_cons_self line rest)
    simp [sectionsFrom, h0]
    exact ih (i + 1) (fun l hl => h l (List.mem_cons_of_mem _ hl))

theorem joinNl_eq_intercalate (ls : List Str) (h : ls ≠ []) :
    joinNl ls = ['\n'].intercalate ls ++ ['\n'] := by
  induction ls with
  | nil => exact absurd rfl h
  | cons l rest ih =>
    cases rest with
    | nil => simp [joinNl, List.intercalate]
    | cons l2 t =>
      rw [joinNl_cons, ih (List.cons_ne_nil l2 t)]
      simp [List.intercalate, List.intersperse]

theorem joinNl_splitOn (content : Str) :
    joinNl (content.splitOn '\n') = content ++ ['\n'] := by
  have hne : content.splitOn '\n' ≠ [] := by
    simpa [List.splitOn] using List.splitOnP_ne_nil (fun c => c == '\n') content
  rw [joinNl_eq_intercalate _ hne, List.intercalate_splitOn]

/-- Claim C7: on an input with no marker lines, `splitFile` returns an empty
file mapping and `remaining` equal to the whole input with a trailing newline
appended. -/
theorem claim_C7_no_markers (content : Str)
    (h : ∀ l ∈ content.splitOn '\n', markerName l = none) :
    splitFile content = ([], content ++ ['\n']) := by
  rw [splitFile_eq_sections, sectionsFrom_eq_nil _ _ h]
  have htw : (content.splitOn '\n').takeWhile nonMarker = content.splitOn '\n' := by
    rw [List.takeWhile_eq_self_iff]
    intro l hl
    simp [nonMarker, h l hl]
  rw [htw, joinNl_splitOn]
  rfl

theorem claim_C7_no_markers_witness :
    (∀ l ∈ ("puts 1\nputs 2".toList : Str).splitOn '\n', markerName l = none) ∧
    splitFile "puts 1\nputs 2".toList = ([], "puts 1\nputs 2\n".toList) := by
  refine ⟨by decide, ?_⟩
  have h := claim_C7_no_markers "puts 1\nputs 2".toList (by decide)
  simpa using h

/-- Looking up `x` after folding map-assignments over a list of entries
returns the value derived from the last entry keyed `x`, falling back to the
initial mapping when no entry has key `x`. -/
theorem mget_foldl_mset {κ β γ : Type} [DecidableEq κ] (g : κ × β → γ) :
    ∀ (l : List (κ × β)) (init : List (κ × γ)) (x : κ),
    mget (l.foldl (fun m s => mset m s.1 (g s)) init) x =
      match (l.filter (fun s => decide (s.1 = x))).getLast? with
      | some s => some (g s)
      | none => mget init x := by
  intro l
  induction l with
  | nil => intro init x; rfl
  | cons s rest ih =>
    intro init x
    rw [List.foldl_cons, ih]
    by_cases hk : s.1 = x
    · cases hrest : rest.filter (fun t => decide (t.1 = x)) with
      | nil => simp [List.filter_cons, hk, hrest, mget_mset_self]
      | cons r t =>
        rw [List.getLast?_eq_getLast (r :: t) (by simp)]
        simp [List.filter_cons, hk, hrest, List.getLast?_cons_cons]
        rw [List.getLast?_eq_getLast (r :: t) (by simp)]
    · cases hrest : rest.filter (fun t => decide (t.1 = x)) with
      | nil => simp [List.filter_cons, hk, hrest, mget_mset_ne _ _ _ _ hk]
      | cons r t =>
        rw [List.getLast?_eq_getLast (r :: t) (by simp)]
        simp [List.filter_cons, hk, hrest]
        rw [List.getLast?_eq_getLast (r :: t) (by simp)]

/-- Claim C8: when the input has two sections with the same filename `x`, the
resulting mapping binds `x` to the second section's content and marker line
(last-write-wins map assignment). -/
theorem claim_C8_last_write_wins (content : Str) (x : Str) (s1 s2 : Str × FileEntry)
    (h : (sectionsFrom 0 (content.splitOn '\n')).filter (fun s => decide (s.1 = x)) = [s1, s2]) :
    mget (splitFile content).1 x = some s2.2 := by
  rw [splitFile_eq_sections]
  rw [mget_foldl_mset (fun s => s.2) _ [] x, h]
  rfl

theorem claim_C8_last_write_wins_witness :
    (sectionsFrom 0 (("#--- x\na\n#--- x\nb".toList : Str).splitOn '\n')).filter
        (fun s => decide (s.1 = "x".toList)) =
      [("x".toList, ⟨"a\n".toList, 0⟩), ("x".toList, ⟨"b\n".toList, 2⟩)] ∧
    mget (splitFile "#--- x\na\n#--- x\nb".toList).1 "x".toList = some ⟨"b\n".toList, 2⟩ :=
  ⟨by decide,
    claim_C8_last_write_wins "#--- x\na\n#--- x\nb".toList "x".toList
      ("x".toList, ⟨"a\n".toList, 0⟩) ("x".toList, ⟨"b\n".toList, 2⟩) (by decide)⟩

/-- The transformation src/index.ts applies to every auxiliary file before
execution: prepend `sourceLine + 1` empty lines to the section's content
("\n".repeat(file.sourceLine + 1) + file.content). -/
def padSection (e : FileEntry) : Str :=
  List.replicate (e.sourceLine + 1) '\n' ++ e.content

/-- The `codeMap` object built by `runCode` in src/index.ts: the main file
bound to `remaining`, then every split section assigned (object-assignment
semantics) with its padded content. -/
def buildCodeMap (code : Str) : List (Str × Str) :=
  (splitFile code).1.foldl (fun m fe => mset m fe.1 (padSection fe.2))
    [("main.rb".toList, (splitFile code).2)]

theorem splitOn_replicate_append (k : Nat) (c : Str) :
    (List.replicate k '\n' ++ c).splitOn '\n' = List.replicate k [] ++ c.splitOn '\n' := by
  induction k with
  | zero => simp
  | succ n ih =>
    rw [List.replicate_succ, List.cons_append, List.replicate_succ]
    simp only [List.splitOn] at ih ⊢
    rw [List.splitOnP_cons]
    simp [ih]

theorem not_mem_of_mem_splitOnP {α : Type} (p : α → Bool) :
    ∀ (xs : List α), ∀ l ∈ xs.splitOnP p, ∀ a ∈ l, ¬p a := by
  intro xs
  induction xs with
  | nil =>
    intro l hl
    simp [List.splitOnP_nil] at hl
    simp [hl]
  | cons x xs ih =>
    intro l hl a ha
    rw [List.splitOnP_cons] at hl
    by_cases hp : p x
    · rw [if_pos hp] at hl
      rcases List.mem_cons.mp hl with h0 | h0
      · subst h0; simp at ha
      · exact ih l h0 a ha
    · rw [if_neg hp] at hl
      cases hsp : xs.splitOnP p with
      | nil => exact absurd hsp (List.splitOnP_ne_nil p xs)
      | cons hd tl =>
        rw [hsp] at hl
        simp only [List.modifyHead] at hl
        rcases List.mem_cons.mp hl with h0 | h0
        · subst h0
          rcases List.mem_cons.mp ha with h1 | h1
          · subst h1; exact hp
          · exact ih hd (hsp ▸ List.mem_cons_self hd tl) a h1
        · exact ih l (hsp ▸ List.mem_cons_of_mem hd h0) a ha

theorem not_newline_of_mem_splitOn (c : Str) (l : Str) (hl : l ∈ c.splitOn '\n') :
    '\n' ∉ l := by
  intro ha
  have h := not_mem_of_mem_splitOnP (fun ch => ch == '\n') c l (by simpa [List.splitOn] using hl) '\n' ha
  simp at h

theorem splitOn_joinNl (ls : List Str) (h : ∀ l ∈ ls, '\n' ∉ l) :
    (joinNl ls).splitOn '\n' = ls ++ [[]] := by
  induction ls with
  | nil => simp [joinNl_nil, List.splitOn]
  | cons l rest ih =>
    rw [joinNl_cons, List.append_assoc, List.singleton_append]
    simp only [List.splitOn]
    have hno : ∀ x ∈ l, ¬((x == '\n') = true) := by
      intro y hy hcontra
      exact h l (List.mem_cons_self l rest) ((by simpa using hcontra : y = '\n') ▸ hy)
    rw [List.splitOnP_first (fun x => x == '\n') l hno '\n' (by simp) (joinNl rest)]
    rw [List.cons_append]
    congr 1
    simpa [List.splitOn] using ih (fun m hm => h m (List.mem_cons_of_mem _ hm))

def keysNodup {κ β : Type} (m : List (κ × β)) : Prop := (m.map Prod.fst).Nodup

theorem keys_mset {κ β : Type} [DecidableEq κ] :
    ∀ (m : List (κ × β)) (k : κ) (v : β),
    (mset m k v).map Prod.fst =
      if k ∈ m.map Prod.fst then m.map Prod.fst else m.map Prod.fst ++ [k] := by
  intro m
  induction m with
  | nil => intro k v; simp [mset]
  | cons p rest ih =>
    intro k v
    obtain ⟨k0, v0⟩ := p
    by_cases hk : k0 = k
    · subst hk
      simp [mset]
    · rw [List.map_cons]
      by_cases hmem : k ∈ rest.map Prod.fst
      · simp [mset, hk, ih, hmem, Ne.symm hk]
      · simp [mset, hk, ih, hmem, Ne.symm hk]

theorem keysNodup_mset {κ β : Type} [DecidableEq κ] (m : List (κ × β)) (k : κ) (v : β)
    (h : keysNodup m) : keysNodup (mset m k v) := by
  unfold keysNodup at h ⊢
  rw [keys_mset]
  by_cases hmem : k ∈ m.map Prod.fst
  · simpa [hmem] using h
  · rw [if_neg hmem]
    refine List.Nodup.append h (List.nodup_singleton k) ?_
    intro a ha hak
    simp only [List.mem_singleton] at hak
    exact hmem (hak ▸ ha)

theorem keysNodup_foldl_mset {κ β γ : Type} [DecidableEq κ] (g : κ × β → γ) :
    ∀ (l : List (κ × β)) (init : List (κ × γ)), keysNodup init →
    keysNodup (l.foldl (fun m s => mset m s.1 (g s)) init) := by
  intro l
  induction l with
  | nil => intro init h; exact h
  | cons s rest ih =>
    intro init h
    rw [List.foldl_cons]
    exact ih _ (keysNodup_mset _ _ _ h)

theorem filter_key_of_nodup {κ β : Type} [DecidableEq κ] :
    ∀ (m : List (κ × β)), keysNodup m → ∀ (k : κ) (v : β), (k, v) ∈ m →
    m.filter (fun s => decide (s.1 = k)) = [(k, v)] := by
  intro m
  induction m with
  | nil => intro _ k v hmem; simp at hmem
  | cons p rest ih =>
    intro hnodup k v hmem
    have hnd := (List.nodup_cons.mp hnodup)
    rcases List.mem_cons.mp hmem with h0 | h0
    · subst h0
      have hrest : rest.filter (fun s => decide (s.1 = k)) = [] := by
        rw [List.filter_eq_nil_iff]
        intro a ha
        simp only [decide_eq_true_eq]
        intro hak
        have hmem2 : a.1 ∈ rest.map Prod.fst := List.mem_map_of_mem Prod.fst ha
        rw [hak] at hmem2
        exact hnd.1 hmem2
      rw [List.filter_cons]
      simp [hrest]
    · have hpk : p.1 ≠ k := by
        intro hpk
        exact hnd.1 (hpk ▸ (List.mem_map_of_mem Prod.fst h0 : (k, v).1 ∈ rest.map Prod.fst))
      rw [List.filter_cons]
      simp only [decide_eq_true_eq, hpk, if_false]
      exact ih hnd.2 k v h0

/-- Membership in the spec-level section list determines the section's
content: the newline-terminated lines strictly after its marker up to the
next marker. -/
theorem sectionsFrom_mem_content :
    ∀ (lines : List Str) (i : Nat) (name : Str) (e : FileEntry),
    (name, e) ∈ sectionsFrom i lines →
    i ≤ e.sourceLine ∧
    e.content = joinNl ((lines.drop (e.sourceLine + 1 - i)).takeWhile nonMarker) := by
  intro lines
  induction lines with
  | nil => intro i name e h; simp [sectionsFrom] at h
  | cons line rest ih =>
    intro i name e h
    cases hm : markerName line with
    | some mname =>
      rw [sectionsFrom, hm] at h
      rcases List.mem_cons.mp h with h0 | h0
      · have he : e = ⟨joinNl (rest.takeWhile nonMarker), i⟩ := congrArg Prod.snd h0
        subst he
        refine ⟨le_refl i, ?_⟩
        simp
      · obtain ⟨hle, hc⟩ := ih (i + 1) name e h0
        refine ⟨Nat.le_of_succ_le hle, ?_⟩
        have harith : e.sourceLine + 1 - i = (e.sourceLine + 1 - (i + 1)) + 1 := by omega
        rw [harith, List.drop_succ_cons]
        exact hc
    | none =>
      rw [sectionsFrom, hm] at h
      obtain ⟨hle, hc⟩ := ih (i + 1) name e h
      refine ⟨Nat.le_of_succ_le hle, ?_⟩
      have harith : e.sourceLine + 1 - i = (e.sourceLine + 1 - (i + 1)) + 1 := by omega
      rw [harith, List.drop_succ_cons]
      exact hc

theorem mem_sections_of_mget (text : Str) (name : Str) (e : FileEntry)
    (h : mget (splitFile text).1 name = some e) :
    (name, e) ∈ sectionsFrom 0 (text.splitOn '\n') := by
  have hfold : (splitFile text).1 =
      (sectionsFrom 0 (text.splitOn '\n')).foldl (fun m s => mset m s.1 s.2) [] := by
    rw [splitFile_eq_sections]
  rw [hfold, mget_foldl_mset (fun s => s.2) _ [] name] at h
  cases hlast : ((sectionsFrom 0 (text.splitOn '\n')).filter
      (fun s => decide (s.1 = name))).getLast? with
  | none => rw [hlast] at h; simp [mget] at h
  | some s =>
    rw [hlast] at h
    simp only [Option.some_inj] at h
    have hs := List.mem_of_mem_getLast? hlast
    have hmem := (List.mem_filter.mp hs).1
    have hname : s.1 = name := by simpa using (List.mem_filter.mp hs).2
    have hpair : s = (name, e) := by
      obtain ⟨s1, s2⟩ := s
      simp only at hname h
      rw [hname, h]
    exact hpair ▸ hmem

/-- Claim C6: prepending exactly `sourceLine + 1` empty lines to a section's
content (the transformation `runCode` applies to every auxiliary file via
`buildCodeMap`) places every content line at the same line index it had in
the original combined buffer. -/
theorem claim_C6_line_alignment :
    (∀ (text name : Str) (e : FileEntry), mget (splitFile text).1 name = some e →
      ∀ j : Nat, j < (((text.splitOn '\n').drop (e.sourceLine + 1)).takeWhile nonMarker).length →
        ((padSection e).splitOn '\n')[e.sourceLine + 1 + j]? =
          (text.splitOn '\n')[e.sourceLine + 1 + j]?) ∧
    (∀ (text name : Str) (e : FileEntry), mget (splitFile text).1 name = some e →
      mget (buildCodeMap text) name = some (padSection e)) := by
  constructor
  · intro text name e hmget j hj
    have hsec := mem_sections_of_mget text name e hmget
    obtain ⟨-, hcontent⟩ := sectionsFrom_mem_content (text.splitOn '\n') 0 name e hsec
    rw [Nat.sub_zero] at hcontent
    have hnonl : ∀ l ∈ ((text.splitOn '\n').drop (e.sourceLine + 1)).takeWhile nonMarker,
        '\n' ∉ l := by
      intro l hl
      exact not_newline_of_mem_splitOn text l
        (List.drop_subset _ _ (List.takeWhile_subset _ hl))
    have hpad : (padSection e).splitOn '\n' =
        List.replicate (e.sourceLine + 1) [] ++
          (((text.splitOn '\n').drop (e.sourceLine + 1)).takeWhile nonMarker ++ [[]]) := by
      rw [padSection, splitOn_replicate_append, hcontent, splitOn_joinNl _ hnonl]
    rw [hpad, List.getElem?_append_right (by simp), ← List.getElem?_drop]
    have hidx : e.sourceLine + 1 + j - (List.replicate (e.sourceLine + 1) ([] : Str)).length = j := by
      simp
    rw [hidx]
    conv_rhs =>
      rw [← List.takeWhile_append_dropWhile nonMarker
        ((text.splitOn '\n').drop (e.sourceLine + 1))]
    rw [List.getElem?_append, List.getElem?_append, if_pos hj, if_pos hj]
  · intro text name e hmget
    have hkeys : keysNodup (splitFile text).1 := by
      rw [splitFile_eq_sections]
      exact keysNodup_foldl_mset (fun s => s.2) _ [] (by simp [keysNodup])
    have hfilter := filter_key_of_nodup _ hkeys name e (mget_mem hmget)
    rw [buildCodeMap, mget_foldl_mset (fun fe => padSection fe.2) _ _ name, hfilter]
    rfl

theorem claim_C6_line_alignment_witness :
    mget (splitFile "main\n#--- foo\nfoo".toList).1 "foo".toList = some ⟨"foo\n".toList, 1⟩ ∧
    0 < (((("main\n#--- foo\nfoo".toList : Str).splitOn '\n').drop 2).takeWhile nonMarker).length ∧
    ((padSection ⟨"foo\n".toList, 1⟩).splitOn '\n')[2]? =
      (("main\n#--- foo\nfoo".toList : Str).splitOn '\n')[2]? ∧
    mget (buildCodeMap "main\n#--- foo\nfoo".toList) "foo".toList =
      some (padSection ⟨"foo\n".toList, 1⟩) :=
  ⟨by decide, by decide,
    by
      simpa using claim_C6_line_alignment.1 "main\n#--- foo\nfoo".toList "foo".toList
        ⟨"foo\n".toList, 1⟩ (by decide) 0 (by decide),
    claim_C6_line_alignment.2 "main\n#--- foo\nfoo".toList "foo".toList
      ⟨"foo\n".toList, 1⟩ (by decide)⟩

/-! ## Virtual filesystem (`WASIFs` in src/ruby.worker.ts)

Heap-based embedding: `Directory`/`File` objects of the JS implementation are
cells addressed by `Addr`; object identity (reference sharing between a VFS
and its shallow clone) is address equality, and in-place mutation of a shared
`Directory` is an update of its cell.  The root is not a cell: its child
mapping is the `rootContents` field of the `WASIFs` instance itself. -/

abbrev Addr := Nat

/-- An inode object: `File { data }` or `Directory { contents }` (children
stored as name-to-address bindings). -/
inductive Inode where
  | file (data : Bytes)
  | dir (contents : List (Str × Addr))
deriving DecidableEq, Repr

/-- The object heap: allocated cells plus a fresh-address counter. -/
structure Heap where
  cells : List (Addr × Inode)
  next : Addr
deriving DecidableEq, Repr

def hget (h : Heap) (a : Addr) : Option Inode := mget h.cells a

def hset (h : Heap) (a : Addr) (c : Inode) : Heap := ⟨mset h.cells a c, h.next⟩

/-- Allocate a fresh cell. -/
def halloc (h : Heap) (c : Inode) : Heap × Addr :=
  (⟨mset h.cells h.next c, h.next + 1⟩, h.next)

/-- A `WASIFs` instance: `public rootContents: Map<string, Inode>`. -/
structure WASIFs where
  rootContents : List (Str × Addr)
deriving DecidableEq, Repr

/-- `shallowClone()`: a new `WASIFs` whose root mapping is a copy of this
one's (`new Map(this.rootContents)`); child inodes stay shared by address. -/
def shallowClone (fs : WASIFs) : WASIFs := ⟨fs.rootContents⟩

/-- Every address stored in an inode is below `n`. -/
def Inode.addrsBelow : Inode → Nat → Prop
  | .file _, _ => True
  | .dir cs, n => ∀ q ∈ cs, q.2 < n

/-- Heap well-formedness: allocated addresses and all addresses stored in
directory cells are below the fresh counter. -/
def Heap.wf (h : Heap) : Prop :=
  ∀ p ∈ h.cells, p.1 < h.next ∧ p.2.addrsBelow h.next

/-- The root mapping of `fs` only stores allocated (below-`next`) addresses. -/
def WASIFs.wfIn (fs : WASIFs) (h : Heap) : Prop :=
  ∀ q ∈ fs.rootContents, q.2 < h.next

instance (c : Inode) (n : Nat) : Decidable (c.addrsBelow n) :=
  match c with
  | .file _ => isTrue trivial
  | .dir cs => inferInstanceAs (Decidable (∀ q ∈ cs, q.2 < n))

instance (h : Heap) : Decidable h.wf :=
  inferInstanceAs (Decidable (∀ p ∈ h.cells, p.1 < h.next ∧ p.2.addrsBelow h.next))

instance (fs : WASIFs) (h : Heap) : Decidable (fs.wfIn h) :=
  inferInstanceAs (Decidable (∀ q ∈ fs.rootContents, q.2 < h.next))

/-- The `IDir` the walking code holds: either the root shim returned by
`_getRoot()` (backed by `rootContents`) or a `Directory` object. -/
inductive DirRef where
  | root
  | node (a : Addr)
deriving DecidableEq, Repr

/-- `current.contents` of the held directory.  For a `node` address whose
cell is missing or is a file the result is `[]`; the implementation never
reaches that case because it only descends into `Directory` instances. -/
def contentsOf (h : Heap) (fs : WASIFs) : DirRef → List (Str × Addr)
  | .root => fs.rootContents
  | .node a =>
    match hget h a with
    | some (.dir cs) => cs
    | _ => []

/-- `create_entry_for_path(name, is_dir)` on the held directory: allocate a
fresh empty `Directory`/`File` object and assign it into the directory's
mapping under `name`, unconditionally replacing any existing binding.  For
the root this is the shim at src/ruby.worker.ts lines 35-45; for non-root
`Directory` objects the external library call is modelled with the same
create-and-assign semantics (the callers below only reach it for names that
are absent, except `writeFileSync`'s final segment). -/
def createEntry (h : Heap) (fs : WASIFs) (ref : DirRef) (name : Str) (isDir : Bool) :
    Heap × WASIFs × Addr :=
  let cell : Inode := if isDir then .dir [] else .file []
  let ha := halloc h cell
  match ref with
  | .root => (ha.1, ⟨mset fs.rootContents name ha.2⟩, ha.2)
  | .node a =>
    match hget h a with
    | some (.dir cs) => (hset ha.1 a (.dir (mset cs name ha.2)), fs, ha.2)
    | _ => (ha.1, fs, ha.2)

/-- The error kinds of thrown filesystem exceptions: `ENOENT` (NotFound),
`ENOTDIR` (NotADirectory), `EEXIST` (AlreadyExists); `enotsup` stands for the
degenerate empty-path case of `writeFileSync` whose JS behavior (a `Map`
entry under the unusable key `undefined`) is unreachable from the claims. -/
inductive FsErr where
  | enoent
  | enotdir
  | eexist
  | enotsup
deriving DecidableEq, Repr

/-- `_splitPath`: split on "/" and drop empty segments and ".". -/
def splitPath (path : Str) : List Str :=
  (path.splitOn '/').filter (fun part => !(part == [] || part == ['.']))

/-- `_getDirectoryAtPath`: walk `path` from the root, creating missing
segments as fresh directories, and throwing `ENOTDIR` when a segment holds a
non-directory inode. -/
def getDirectoryAtPath : List Str → DirRef → Heap → WASIFs →
    Heap × WASIFs × Except FsErr DirRef
  | [], cur, h, fs => (h, fs, .ok cur)
  | part :: rest, cur, h, fs =>
    match mget (contentsOf h fs cur) part with
    | none =>
      let created := createEntry h fs cur part true
      getDirectoryAtPath rest (.node created.2.2) created.1 created.2.1
    | some a =>
      match hget h a with
      | some (.dir _) => getDirectoryAtPath rest (.node a) h fs
      | _ => (h, fs, .error .enotdir)

/-- The loop body of `mkdirSync` over the path's segments.  (The inner
`if (part === "") continue` of the source is unreachable because
`_splitPath` already removed empty segments.) -/
def mkdirLoop (recursive : Bool) : List Str → DirRef → Heap → WASIFs →
    Heap × WASIFs × Except FsErr Unit
  | [], _, h, fs => (h, fs, .ok ())
  | part :: rest, cur, h, fs =>
    match mget (contentsOf h fs cur) part with
    | none =>
      if recursive then
        let created := createEntry h fs cur part true
        mkdirLoop recursive rest (.node created.2.2) created.1 created.2.1
      else
        (h, fs, .error .enoent)
    | some a =>
      match hget h a with
      | some (.dir _) => mkdirLoop recursive rest (.node a) h fs
      | _ => (h, fs, .error .eexist)

/-- `mkdirSync(path, options)`. -/
def mkdirSync (h : Heap) (fs : WASIFs) (path : Str) (recursive : Bool) :
    Heap × WASIFs × Except FsErr Unit :=
  mkdirLoop recursive (splitPath path) .root h fs

/-- `writeFileSync(path, data)`: resolve/auto-create the parent directories,
`create_entry_for_path(lastSegment, false)`, then assign `data` into the
created `File` object. -/
def writeFileSync (h : Heap) (fs : WASIFs) (path : Str) (data : Bytes) :
    Heap × WASIFs × Except FsErr Unit :=
  let parts := splitPath path
  match getDirectoryAtPath parts.dropLast .root h fs with
  | (h1, fs1, .error e) => (h1, fs1, .error e)
  | (h1, fs1, .ok dirRef) =>
    match parts.getLast? with
    | none => (h1, fs1, .error .enotsup)
    | some last =>
      let created := createEntry h1 fs1 dirRef last false
      (hset created.1 created.2.2 (.file data), created.2.1, .ok ())

/-- `readFileSync(path)`: resolve the parent directories (creating missing
ones as directories, exactly as `_getDirectoryAtPath` does), then look up
the final segment; a missing entry throws `ENOENT`.  The unchecked
`as File` cast means reading a path bound to a `Directory` yields the JS
value `undefined` (modelled `none`) rather than an error. -/
def readFileSync (h : Heap) (fs : WASIFs) (path : Str) :
    Heap × WASIFs × Except FsErr (Option Bytes) :=
  let parts := splitPath path
  match getDirectoryAtPath parts.dropLast .root h fs with
  | (h1, fs1, .error e) => (h1, fs1, .error e)
  | (h1, fs1, .ok dirRef) =>
    match parts.getLast? with
    | none => (h1, fs1, .error .enoent)
    | some last =>
      match mget (contentsOf h1 fs1 dirRef) last with
      | none => (h1, fs1, .error .enoent)
      | some a =>
        match hget h1 a with
        | some (.file data) => (h1, fs1, .ok (some data))
        | _ => (h1, fs1, .ok none)

instance {e a : Type} [DecidableEq e] [DecidableEq a] : DecidableEq (Except e a) := fun x y =>
  match x, y with
  | .ok u, .ok v => decidable_of_iff (u = v) (by simp)
  | .ok _, .error _ => isFalse (by simp)
  | .error _, .ok _ => isFalse (by simp)
  | .error u, .error v => decidable_of_iff (u = v) (by simp)

/-- Counterexample to claim C1: with the root holding a `Directory` at
top-level name "d", `writeFileSync "/d"` succeeds (no
`AlreadyExists`/`NotADirectory` error) and silently replaces the directory
with a fresh `File`, which a subsequent read observes. -/
theorem claim_C1_counterexample :
    writeFileSync ⟨[(0, .dir [])], 1⟩ ⟨[("d".toList, 0)]⟩ "/d".toList [1, 2] =
      (⟨[(0, .dir []), (1, .file [1, 2])], 2⟩, ⟨[("d".toList, 1)]⟩, .ok ()) ∧
    (readFileSync ⟨[(0, .dir []), (1, .file [1, 2])], 2⟩ ⟨[("d".toList, 1)]⟩
      "/d".toList).2.2 = .ok (some [1, 2]) := by
  decide

/-- Claim C1 amended: `writeFileSync` at a top-level path bound to a
`Directory` does not fail — it silently replaces the directory with a fresh
`File` holding the data (the root shim's `create_entry_for_path`
unconditionally reassigns the binding); a `NotADirectory` failure occurs
only when a non-terminal segment holds a `File`, and then the states are
left untouched. -/
theorem claim_C1_amended :
    (∀ (h : Heap) (fs : WASIFs) (path name : Str) (a : Addr) (cs : List (Str × Addr))
        (data : Bytes),
      splitPath path = [name] → mget fs.rootContents name = some a →
      hget h a = some (.dir cs) →
      writeFileSync h fs path data =
        (⟨mset (mset h.cells h.next (.file [])) h.next (.file data), h.next + 1⟩,
          ⟨mset fs.rootContents name h.next⟩, .ok ()) ∧
      mget (mset fs.rootContents name h.next) name = some h.next) ∧
    (∀ (h : Heap) (fs : WASIFs) (path name : Str) (rest : List Str) (a : Addr)
        (d data : Bytes),
      splitPath path = name :: rest → rest ≠ [] → mget fs.rootContents name = some a →
      hget h a = some (.file d) →
      writeFileSync h fs path data = (h, fs, .error .enotdir)) := by
  constructor
  · intro h fs path name a cs data hsplit hroot hdir
    constructor
    · simp [writeFileSync, hsplit, getDirectoryAtPath, createEntry, halloc, hset]
    · exact mget_mset_self _ _ _
  · intro h fs path name rest a d data hsplit hrest hroot hfile
    cases rest with
    | nil => exact absurd rfl hrest
    | cons r t =>
      have hdl : (name :: r :: t).dropLast = name :: (r :: t).dropLast := by
        simp [List.dropLast]
      simp [writeFileSync, hsplit, hdl, getDirectoryAtPath, contentsOf, hroot, hfile]

theorem claim_C1_amended_witness :
    (writeFileSync ⟨[(0, .dir [])], 1⟩ ⟨[("d".toList, 0)]⟩ "/d".toList [7] =
      (⟨[(0, .dir []), (1, .file [7])], 2⟩, ⟨[("d".toList, 1)]⟩, .ok ()) ∧
      mget (mset [("d".toList, (0 : Addr))] "d".toList 1) "d".toList = some 1) ∧
    writeFileSync ⟨[(0, .file [])], 1⟩ ⟨[("f".toList, 0)]⟩ "/f/x".toList [1] =
      (⟨[(0, .file [])], 1⟩, ⟨[("f".toList, 0)]⟩, .error .enotdir) := by
  constructor
  · have h := claim_C1_amended.1 ⟨[(0, .dir [])], 1⟩ ⟨[("d".toList, 0)]⟩ "/d".toList
      "d".toList 0 [] [7] (by decide) (by decide) (by decide)
    simpa using h
  · exact claim_C1_amended.2 ⟨[(0, .file [])], 1⟩ ⟨[("f".toList, 0)]⟩ "/f/x".toList
      "f".toList ["x".toList] 0 [] [1] (by decide) (by decide) (by decide) (by decide)

/-- Counterexample to claim C4: with a `File` at the intermediate segment
"a", `mkdirSync "/a/b"` fails with `EEXIST` (AlreadyExists), not with
`ENOTDIR` (NotADirectory) as the claim states. -/
theorem claim_C4_counterexample :
    mkdirSync ⟨[(0, .file [])], 1⟩ ⟨[("a".toList, 0)]⟩ "/a/b".toList true =
      (⟨[(0, .file [])], 1⟩, ⟨[("a".toList, 0)]⟩, .error .eexist) ∧
    (mkdirSync ⟨[(0, .file [])], 1⟩ ⟨[("a".toList, 0)]⟩ "/a/b".toList true).2.2 ≠
      .error .enotdir := by
  decide

/-- Claim C4 amended: `mkdir` walks the path's segments from the root; a
missing segment is created (as a fresh empty directory) only when
`recursive` is true and otherwise fails with `NotFound`; an existing
non-directory inode encountered at any segment — intermediate or final —
fails with `AlreadyExists` (not `NotADirectory`); a final segment that
already exists as a directory succeeds idempotently, leaving the state
unchanged. -/
theorem claim_C4_amended :
    (∀ (h : Heap) (fs : WASIFs) (path : Str) (recursive : Bool),
      mkdirSync h fs path recursive = mkdirLoop recursive (splitPath path) .root h fs) ∧
    (∀ (part : Str) (rest : List Str) (cur : DirRef) (h : Heap) (fs : WASIFs),
      mget (contentsOf h fs cur) part = none →
      mkdirLoop false (part :: rest) cur h fs = (h, fs, .error .enoent)) ∧
    (∀ (recursive : Bool) (part : Str) (rest : List Str) (cur : DirRef) (h : Heap)
        (fs : WASIFs) (a : Addr) (d : Bytes),
      mget (contentsOf h fs cur) part = some a → hget h a = some (.file d) →
      mkdirLoop recursive (part :: rest) cur h fs = (h, fs, .error .eexist)) ∧
    (∀ (recursive : Bool) (part : Str) (cur : DirRef) (h : Heap) (fs : WASIFs)
        (a : Addr) (cs : List (Str × Addr)),
      mget (contentsOf h fs cur) part = some a → hget h a = some (.dir cs) →
      mkdirLoop recursive [part] cur h fs = (h, fs, .ok ())) ∧
    (∀ (part : Str) (rest : List Str) (cur : DirRef) (h : Heap) (fs : WASIFs),
      h.wf → mget (contentsOf h fs cur) part = none →
      mkdirLoop true (part :: rest) cur h fs =
        mkdirLoop true rest (.node (createEntry h fs cur part true).2.2)
          (createEntry h fs cur part true).1 (createEntry h fs cur part true).2.1 ∧
      hget (createEntry h fs cur part true).1 (createEntry h fs cur part true).2.2 =
        some (.dir [])) := by
  refine ⟨fun h fs path recursive => rfl, ?_, ?_, ?_, ?_⟩
  · intro part rest cur h fs hnone
    simp [mkdirLoop, hnone]
  · intro recursive part rest cur h fs a d hsome hfile
    simp [mkdirLoop, hsome, hfile]
  · intro recursive part cur h fs a cs hsome hdir
    simp [mkdirLoop, hsome, hdir]
  · intro part rest cur h fs hwf hnone
    constructor
    · simp [mkdirLoop, hnone]
    · cases cur with
      | root =>
        simp only [createEntry, halloc]
        exact mget_mset_self _ _ _
      | node a =>
        cases hcell : hget h a with
        | none =>
          simp only [createEntry, halloc, hcell]
          exact mget_mset_self _ _ _
        | some c =>
          cases c with
          | file d =>
            simp only [createEntry, halloc, hcell]
            exact mget_mset_self _ _ _
          | dir cs =>
            simp only [createEntry, halloc, hcell, hset]
            have hmem := mget_mem (show mget h.cells a = some (.dir cs) from hcell)
            have hne : a ≠ h.next := Nat.ne_of_lt (hwf _ hmem).1
            show mget (mset (mset h.cells h.next (.dir []))
              a (.dir (mset cs part h.next))) h.next = some (.dir [])
            rw [mget_mset_ne _ _ _ _ hne]
            exact mget_mset_self _ _ _

theorem claim_C4_amended_witness :
    mkdirSync ⟨[], 0⟩ ⟨[]⟩ "/x".toList false =
      mkdirLoop false (splitPath "/x".toList) .root ⟨[], 0⟩ ⟨[]⟩ ∧
    mkdirLoop false ["x".toList] .root ⟨[], 0⟩ ⟨[]⟩ = (⟨[], 0⟩, ⟨[]⟩, .error .enoent) ∧
    mkdirLoop true ["a".toList, "b".toList] .root ⟨[(0, .file [])], 1⟩ ⟨[("a".toList, 0)]⟩ =
      (⟨[(0, .file [])], 1⟩, ⟨[("a".toList, 0)]⟩, .error .eexist) ∧
    mkdirLoop true ["a".toList] .root ⟨[(0, .dir [])], 1⟩ ⟨[("a".toList, 0)]⟩ =
      (⟨[(0, .dir [])], 1⟩, ⟨[("a".toList, 0)]⟩, .ok ()) ∧
    (mkdirLoop true ["x".toList] .root ⟨[], 0⟩ ⟨[]⟩ =
      mkdirLoop true [] (.node (createEntry ⟨[], 0⟩ ⟨[]⟩ .root "x".toList true).2.2)
        (createEntry ⟨[], 0⟩ ⟨[]⟩ .root "x".toList true).1
        (createEntry ⟨[], 0⟩ ⟨[]⟩ .root "x".toList true).2.1 ∧
     hget (createEntry ⟨[], 0⟩ ⟨[]⟩ .root "x".toList true).1
       (createEntry ⟨[], 0⟩ ⟨[]⟩ .root "x".toList true).2.2 = some (.dir [])) :=
  ⟨claim_C4_amended.1 ⟨[], 0⟩ ⟨[]⟩ "/x".toList false,
   claim_C4_amended.2.1 "x".toList [] .root ⟨[], 0⟩ ⟨[]⟩ (by decide),
   claim_C4_amended.2.2.1 true "a".toList ["b".toList] .root ⟨[(0, .file [])], 1⟩
     ⟨[("a".toList, 0)]⟩ 0 [] (by decide) (by decide),
   claim_C4_amended.2.2.2.1 true "a".toList .root ⟨[(0, .dir [])], 1⟩
     ⟨[("a".toList, 0)]⟩ 0 [] (by decide) (by decide),
   claim_C4_amended.2.2.2.2 "x".toList [] .root ⟨[], 0⟩ ⟨[]⟩ (by decide) (by decide)⟩

/-- Claim C10: `readFileSync` on a three-segment path whose top segment is
missing throws `ENOENT`, but before throwing it has created both missing
non-terminal segments as fresh empty directories: the returned state binds
`x` to a new directory containing `y`, itself a new empty directory. -/
theorem claim_C10_readFile_creates_missing_dirs
    (h : Heap) (fs : WASIFs) (path x y z : Str)
    (hsplit : splitPath path = [x, y, z]) (hnone : mget fs.rootContents x = none) :
    readFileSync h fs path =
      (⟨mset (mset (mset h.cells h.next (.dir [])) (h.next + 1) (.dir []))
          h.next (.dir [(y, h.next + 1)]), h.next + 2⟩,
        ⟨mset fs.rootContents x h.next⟩, .error .enoent) ∧
    mget (mset fs.rootContents x h.next) x = some h.next ∧
    hget (⟨mset (mset (mset h.cells h.next (.dir [])) (h.next + 1) (.dir []))
        h.next (.dir [(y, h.next + 1)]), h.next + 2⟩ : Heap) h.next =
      some (.dir [(y, h.next + 1)]) ∧
    hget (⟨mset (mset (mset h.cells h.next (.dir [])) (h.next + 1) (.dir []))
        h.next (.dir [(y, h.next + 1)]), h.next + 2⟩ : Heap) (h.next + 1) =
      some (.dir []) := by
  have hne : h.next ≠ h.next + 1 := Nat.ne_of_lt (Nat.lt_succ_self _)
  have e1 : createEntry h fs .root x true =
      (⟨mset h.cells h.next (.dir []), h.next + 1⟩,
        ⟨mset fs.rootContents x h.next⟩, h.next) := rfl
  have e2 : hget (⟨mset h.cells h.next (.dir []), h.next + 1⟩ : Heap) h.next =
      some (.dir []) := mget_mset_self _ _ _
  have e3 : createEntry ⟨mset h.cells h.next (.dir []), h.next + 1⟩
      ⟨mset fs.rootContents x h.next⟩ (.node h.next) y true =
      (⟨mset (mset (mset h.cells h.next (.dir [])) (h.next + 1) (.dir []))
          h.next (.dir [(y, h.next + 1)]), h.next + 2⟩,
        ⟨mset fs.rootContents x h.next⟩, h.next + 1) := by
    simp only [createEntry, halloc, hset, e2]
    rfl
  have e4 : hget (⟨mset (mset (mset h.cells h.next (.dir [])) (h.next + 1) (.dir []))
      h.next (.dir [(y, h.next + 1)]), h.next + 2⟩ : Heap) (h.next + 1) =
      some (.dir []) := by
    show mget _ _ = _
    rw [mget_mset_ne _ _ _ _ hne]
    exact mget_mset_self _ _ _
  refine ⟨?_, mget_mset_self _ _ _, mget_mset_self _ _ _, e4⟩
  have g1 : getDirectoryAtPath [x, y] .root h fs =
      getDirectoryAtPath [y] (.node h.next) ⟨mset h.cells h.next (.dir []), h.next + 1⟩
        ⟨mset fs.rootContents x h.next⟩ := by
    simp only [getDirectoryAtPath, contentsOf, hnone, e1]
  have g2 : getDirectoryAtPath [y] (.node h.next)
      (⟨mset h.cells h.next (.dir []), h.next + 1⟩ : Heap)
      (⟨mset fs.rootContents x h.next⟩ : WASIFs) =
      (⟨mset (mset (mset h.cells h.next (.dir [])) (h.next + 1) (.dir []))
          h.next (.dir [(y, h.next + 1)]), h.next + 2⟩,
        ⟨mset fs.rootContents x h.next⟩, .ok (.node (h.next + 1))) := by
    simp only [getDirectoryAtPath, contentsOf, e2, e3, mget]
  simp only [readFileSync]
  rw [hsplit]
  rw [show ([x, y, z] : List Str).dropLast = [x, y] from rfl]
  rw [show ([x, y, z] : List Str).getLast? = some z from rfl]
  rw [g1, g2]
  simp only [contentsOf, e4, mget]

theorem claim_C10_witness :
    readFileSync ⟨[], 0⟩ ⟨[]⟩ "/a/b/c".toList =
      (⟨[(0, .dir [("b".toList, 1)]), (1, .dir [])], 2⟩, ⟨[("a".toList, 0)]⟩,
        .error .enoent) ∧
    mget [("a".toList, (0 : Addr))] "a".toList = some 0 ∧
    hget ⟨[(0, .dir [("b".toList, 1)]), (1, .dir [])], 2⟩ 0 =
      some (.dir [("b".toList, 1)]) ∧
    hget ⟨[(0, .dir [("b".toList, 1)]), (1, .dir [])], 2⟩ 1 = some (.dir []) :=
  claim_C10_readFile_creates_missing_dirs ⟨[], 0⟩ ⟨[]⟩ "/a/b/c".toList
    "a".toList "b".toList "c".toList (by decide) (by decide)

/-- Claim C3: writing a top-level path in a `shallowClone` never changes
what the source VFS reads at that path (the clone's root mapping is a copy
and the written `File` is a fresh object), while a write that lands inside a
child directory shared by reference between the two is visible through the
source VFS as well. -/
theorem claim_C3_clone_isolation :
    (∀ (h : Heap) (fs : WASIFs) (path name : Str) (data : Bytes),
      fs.wfIn h → splitPath path = [name] →
      (readFileSync (writeFileSync h (shallowClone fs) path data).1 fs path).2.2 =
        (readFileSync h fs path).2.2) ∧
    (∀ (h : Heap) (fs : WASIFs) (path d x : Str) (dAddr : Addr)
        (cs : List (Str × Addr)) (data : Bytes),
      h.wf → splitPath path = [d, x] → mget fs.rootContents d = some dAddr →
      hget h dAddr = some (.dir cs) → mget cs x = none →
      (readFileSync (writeFileSync h (shallowClone fs) path data).1 fs path).2.2 =
        .ok (some data)) := by
  constructor
  · intro h fs path name data hwfin hsplit
    have hw : (writeFileSync h (shallowClone fs) path data).1 =
        ⟨mset (mset h.cells h.next (.file [])) h.next (.file data), h.next + 1⟩ := by
      simp [writeFileSync, hsplit, getDirectoryAtPath, createEntry, halloc, hset,
        shallowClone]
    rw [hw]
    simp only [readFileSync]
    rw [hsplit]
    rw [show ([name] : List Str).dropLast = [] from rfl]
    rw [show ([name] : List Str).getLast? = some name from rfl]
    simp only [getDirectoryAtPath, contentsOf]
    cases hroot : mget fs.rootContents name with
    | none => simp [hroot]
    | some a =>
      have ha : a < h.next := hwfin _ (mget_mem hroot)
      have hne : h.next ≠ a := Ne.symm (Nat.ne_of_lt ha)
      have hh : hget (⟨mset (mset h.cells h.next (.file [])) h.next (.file data),
          h.next + 1⟩ : Heap) a = hget h a := by
        show mget _ _ = _
        rw [mget_mset_ne _ _ _ _ hne, mget_mset_ne _ _ _ _ hne]
        rfl
      simp only [hroot, hh]
      cases hcell : hget h a with
      | none => rfl
      | some c => cases c <;> rfl
  · intro h fs path d x dAddr cs data hwf hsplit hroot hdir hmiss
    have hdlt : dAddr < h.next := (hwf _ (mget_mem hdir)).1
    have hne : h.next ≠ dAddr := Ne.symm (Nat.ne_of_lt hdlt)
    have hw : (writeFileSync h (shallowClone fs) path data).1 =
        ⟨mset (mset (mset h.cells h.next (.file [])) dAddr (.dir (mset cs x h.next)))
          h.next (.file data), h.next + 1⟩ := by
      simp only [writeFileSync, hsplit, shallowClone]
      rw [show ([d, x] : List Str).dropLast = [d] from rfl]
      rw [show ([d, x] : List Str).getLast? = some x from rfl]
      simp only [getDirectoryAtPath, contentsOf, hroot, hdir, createEntry, halloc, hset]
      rfl
    rw [hw]
    have hWd : hget (⟨mset (mset (mset h.cells h.next (.file [])) dAddr
        (.dir (mset cs x h.next))) h.next (.file data), h.next + 1⟩ : Heap) dAddr =
        some (.dir (mset cs x h.next)) := by
      show mget _ _ = _
      rw [mget_mset_ne _ _ _ _ hne]
      exact mget_mset_self _ _ _
    have hWn : hget (⟨mset (mset (mset h.cells h.next (.file [])) dAddr
        (.dir (mset cs x h.next))) h.next (.file data), h.next + 1⟩ : Heap) h.next =
        some (.file data) := mget_mset_self _ _ _
    simp only [readFileSync]
    rw [hsplit]
    rw [show ([d, x] : List Str).dropLast = [d] from rfl]
    rw [show ([d, x] : List Str).getLast? = some x from rfl]
    simp only [getDirectoryAtPath, contentsOf, hroot, hWd, mget_mset_self, hWn]

theorem claim_C3_clone_isolation_witness :
    (readFileSync (writeFileSync ⟨[(0, .file [9])], 1⟩ (shallowClone ⟨[("p".toList, 0)]⟩)
        "/p".toList [1]).1 ⟨[("p".toList, 0)]⟩ "/p".toList).2.2 =
      (readFileSync ⟨[(0, .file [9])], 1⟩ ⟨[("p".toList, 0)]⟩ "/p".toList).2.2 ∧
    (readFileSync (writeFileSync ⟨[(0, .dir [])], 1⟩ (shallowClone ⟨[("d".toList, 0)]⟩)
        "/d/x".toList [5]).1 ⟨[("d".toList, 0)]⟩ "/d/x".toList).2.2 = .ok (some [5]) :=
  ⟨claim_C3_clone_isolation.1 ⟨[(0, .file [9])], 1⟩ ⟨[("p".toList, 0)]⟩ "/p".toList
      "p".toList [1] (by decide) (by decide),
   claim_C3_clone_isolation.2 ⟨[(0, .dir [])], 1⟩ ⟨[("d".toList, 0)]⟩ "/d/x".toList
      "d".toList "x".toList 0 [] [5] (by decide) (by decide) (by decide) (by decide)
      (by decide)⟩

/-! ## Execution harness (`RubyWorker.run`)

The WebAssembly module itself is opaque: its observable behavior — the
chunks it writes to fd 1/2 (forwarded chunk-by-chunk to `log` by
`consolePrinter`), whether `WebAssembly.instantiate` rejects, and whether
`wasi.start` throws — is a parameter `sandbox`, a function of the argv the
harness constructs.  Errors are carried as the logged/thrown message
string. -/

inductive RunErr where
  | unknownAction (action : Str)
  | fsError (e : FsErr)
  | hostFault (msg : Str)
  | sandboxFault (msg : Str)
deriving DecidableEq, Repr

/-- The observable behavior of one sandboxed execution. -/
structure SandboxBehavior where
  instantiateResult : Except Str Unit
  outputs : List Str
  startResult : Except Str Unit
deriving DecidableEq, Repr

/-- The `switch (action)` of `RubyWorker.run`: the flags pushed onto
`extraArgs`, or `none` for the `default: throw` branch. -/
def actionFlags (action : Str) : Option (List Str) :=
  if action = "eval".toList then some []
  else if action = "compile".toList then some ["--dump=insns".toList]
  else if action = "syntax".toList then some ["--dump=parsetree".toList]
  else if action = "syntax+prism".toList then some ["--dump=prism_parsetree".toList]
  else none

/-- `new TextEncoder().encode(s)`. -/
def utf8Encode (s : Str) : Bytes :=
  ((String.mk s).toUTF8.toList).map UInt8.toNat

/-- The `for (const path in code) codeFs.writeFileSync(path, encode(...))`
loop; a thrown filesystem error propagates and aborts the loop. -/
def writeCodeFiles : List (Str × Bytes) → Heap → WASIFs →
    Heap × WASIFs × Except FsErr Unit
  | [], h, fs => (h, fs, .ok ())
  | (p, dat) :: rest, h, fs =>
    match writeFileSync h fs p dat with
    | (h1, fs1, .ok _) => writeCodeFiles rest h1 fs1
    | (h1, fs1, .error e) => (h1, fs1, .error e)

/-- `RubyWorker.run` from src/ruby.worker.ts: validate the action and push
its flags, `shallowClone` the base filesystem, merge the request files,
build the argv `["ruby"] ++ extraArgs ++ [mainScriptPath]`, instantiate and
start the module.  A rejected instantiation propagates un-logged; an
exception from `wasi.start` is logged (`log(e)`) and then re-thrown
(`throw e`).  Returns the final heap, the chunks delivered to `log`, and
the completion or failure of the call. -/
def RubyWorker.run (h : Heap) (fs : WASIFs) (code : List (Str × Str))
    (mainScriptPath : Str) (action : Str) (extraArgs : List Str)
    (sandbox : List Str → WASIFs → Heap → SandboxBehavior) :
    Heap × List Str × Except RunErr Unit :=
  match actionFlags action with
  | none => (h, [], .error (.unknownAction action))
  | some flags =>
    let extra := extraArgs ++ flags
    let codeFs := shallowClone fs
    match writeCodeFiles (code.map (fun pc => (pc.1, utf8Encode pc.2))) h codeFs with
    | (h1, _, .error e) => (h1, [], .error (.fsError e))
    | (h1, fs1, .ok _) =>
      let argv := ["ruby".toList] ++ extra ++ [mainScriptPath]
      let sb := sandbox argv fs1 h1
      match sb.instantiateResult with
      | .error e => (h1, [], .error (.hostFault e))
      | .ok _ =>
        match sb.startResult with
        | .ok _ => (h1, sb.outputs, .ok ())
        | .error e => (h1, sb.outputs ++ [e], .error (.sandboxFault e))

/-- `RubyWorker.run` of the historical worker variant (src/unnamed/part_009
and part_008): same action switch, argv `["ruby", "-e", code] ++ extraArgs`,
and a `catch (e) { log(e) }` that swallows the fault after logging it, so
the call resolves normally. -/
def RubyWorker.run009 (code : Str) (action : Str) (extraArgs : List Str)
    (sandbox : List Str → SandboxBehavior) : List Str × Except RunErr Unit :=
  match actionFlags action with
  | none => ([], .error (.unknownAction action))
  | some flags =>
    let sb := sandbox (["ruby".toList, "-e".toList, code] ++ (extraArgs ++ flags))
    match sb.instantiateResult with
    | .error e => ([], .error (.hostFault e))
    | .ok _ =>
      match sb.startResult with
      | .ok _ => (sb.outputs, .ok ())
      | .error e => (sb.outputs ++ [e], .ok ())

/-- Counterexample to claim C2: in the current worker a fault thrown by
`wasi.start` during execution is logged to `onOutput` but then re-thrown
(`log(e); throw e`), so `run` does propagate it to the caller as a failure
instead of resolving normally. -/
theorem claim_C2_counterexample :
    RubyWorker.run ⟨[], 0⟩ ⟨[]⟩ [] "main.rb".toList "eval".toList []
        (fun _ _ _ => ⟨.ok (), ["partial".toList], .error "boom".toList⟩) =
      (⟨[], 0⟩, ["partial".toList, "boom".toList],
        .error (.sandboxFault "boom".toList)) ∧
    (RubyWorker.run ⟨[], 0⟩ ⟨[]⟩ [] "main.rb".toList "eval".toList []
        (fun _ _ _ => ⟨.ok (), ["partial".toList], .error "boom".toList⟩)).2.2 ≠
      .ok () := by
  decide

/-- Claim C2 amended: a runtime fault raised during execution is caught and
forwarded to `onOutput` as output text after the partial output already
produced — but the two harness variants then disagree: the current worker
(src/ruby.worker.ts) re-raises it to the caller as well, while the
historical variant (part_008/part_009) swallows it and resolves normally.
A failure of `WebAssembly.instantiate` itself is re-raised to the caller
without being forwarded to `onOutput` in both. -/
theorem claim_C2_amended :
    (∀ (h : Heap) (fs : WASIFs) (code : List (Str × Str)) (m action : Str)
        (extra flags : List Str) (sandbox : List Str → WASIFs → Heap → SandboxBehavior)
        (h1 : Heap) (fs1 : WASIFs) (msg : Str),
      actionFlags action = some flags →
      writeCodeFiles (code.map (fun pc => (pc.1, utf8Encode pc.2))) h (shallowClone fs) =
        (h1, fs1, .ok ()) →
      (sandbox (["ruby".toList] ++ (extra ++ flags) ++ [m]) fs1 h1).instantiateResult =
        .ok () →
      (sandbox (["ruby".toList] ++ (extra ++ flags) ++ [m]) fs1 h1).startResult =
        .error msg →
      RubyWorker.run h fs code m action extra sandbox =
        (h1, (sandbox (["ruby".toList] ++ (extra ++ flags) ++ [m]) fs1 h1).outputs ++ [msg],
          .error (.sandboxFault msg))) ∧
    (∀ (code action : Str) (extra flags : List Str) (sandbox : List Str → SandboxBehavior)
        (msg : Str),
      actionFlags action = some flags →
      (sandbox (["ruby".toList, "-e".toList, code] ++ (extra ++ flags))).instantiateResult =
        .ok () →
      (sandbox (["ruby".toList, "-e".toList, code] ++ (extra ++ flags))).startResult =
        .error msg →
      RubyWorker.run009 code action extra sandbox =
        ((sandbox (["ruby".toList, "-e".toList, code] ++ (extra ++ flags))).outputs ++ [msg],
          .ok ())) ∧
    (∀ (h : Heap) (fs : WASIFs) (code : List (Str × Str)) (m action : Str)
        (extra flags : List Str) (sandbox : List Str → WASIFs → Heap → SandboxBehavior)
        (h1 : Heap) (fs1 : WASIFs) (msg : Str),
      actionFlags action = some flags →
      writeCodeFiles (code.map (fun pc => (pc.1, utf8Encode pc.2))) h (shallowClone fs) =
        (h1, fs1, .ok ()) →
      (sandbox (["ruby".toList] ++ (extra ++ flags) ++ [m]) fs1 h1).instantiateResult =
        .error msg →
      RubyWorker.run h fs code m action extra sandbox =
        (h1, [], .error (.hostFault msg))) := by
  refine ⟨?_, ?_, ?_⟩
  · intro h fs code m action extra flags sandbox h1 fs1 msg hflags hwrite hinst hstart
    simp only [RubyWorker.run, hflags, hwrite, hinst, hstart]
  · intro code action extra flags sandbox msg hflags hinst hstart
    simp only [RubyWorker.run009, hflags, hinst, hstart]
  · intro h fs code m action extra flags sandbox h1 fs1 msg hflags hwrite hinst
    simp only [RubyWorker.run, hflags, hwrite, hinst]

theorem claim_C2_amended_witness :
    RubyWorker.run ⟨[], 0⟩ ⟨[]⟩ [] "main.rb".toList "eval".toList []
        (fun _ _ _ => ⟨.ok (), ["out".toList], .error "err".toList⟩) =
      (⟨[], 0⟩, ["out".toList, "err".toList], .error (.sandboxFault "err".toList)) ∧
    RubyWorker.run009 "p 1".toList "eval".toList []
        (fun _ => ⟨.ok (), ["out".toList], .error "err".toList⟩) =
      (["out".toList, "err".toList], .ok ()) ∧
    RubyWorker.run ⟨[], 0⟩ ⟨[]⟩ [] "main.rb".toList "eval".toList []
        (fun _ _ _ => ⟨.error "bad module".toList, [], .ok ()⟩) =
      (⟨[], 0⟩, [], .error (.hostFault "bad module".toList)) :=
  ⟨claim_C2_amended.1 ⟨[], 0⟩ ⟨[]⟩ [] "main.rb".toList "eval".toList [] []
      (fun _ _ _ => ⟨.ok (), ["out".toList], .error "err".toList⟩) ⟨[], 0⟩ ⟨[]⟩
      "err".toList (by decide) (by decide) (by decide) (by decide),
   claim_C2_amended.2.1 "p 1".toList "eval".toList [] []
      (fun _ => ⟨.ok (), ["out".toList], .error "err".toList⟩) "err".toList
      (by decide) (by decide) (by decide),
   claim_C2_amended.2.2 ⟨[], 0⟩ ⟨[]⟩ [] "main.rb".toList "eval".toList [] []
      (fun _ _ _ => ⟨.error "bad module".toList, [], .ok ()⟩) ⟨[], 0⟩ ⟨[]⟩
      "bad module".toList (by decide) (by decide) (by decide)⟩

/-- Claim C9: an action outside the fixed set {"eval", "compile", "syntax",
"syntax+prism"} makes `run` fail immediately with the unknown-action error:
the heap is returned untouched (the base VFS is not cloned and no request
file is written) and no output chunk is delivered. -/
theorem claim_C9_unknown_action (h : Heap) (fs : WASIFs) (code : List (Str × Str))
    (mainScriptPath action : Str) (extraArgs : List Str)
    (sandbox : List Str → WASIFs → Heap → SandboxBehavior)
    (hact : action ∉ (["eval".toList, "compile".toList, "syntax".toList,
      "syntax+prism".toList] : List Str)) :
    RubyWorker.run h fs code mainScriptPath action extraArgs sandbox =
      (h, [], .error (.unknownAction action)) := by
  have h1 : action ≠ "eval".toList := fun hc => hact (by simp [hc])
  have h2 : action ≠ "compile".toList := fun hc => hact (by simp [hc])
  have h3 : action ≠ "syntax".toList := fun hc => hact (by simp [hc])
  have h4 : action ≠ "syntax+prism".toList := fun hc => hact (by simp [hc])
  have hflags : actionFlags action = none := by
    simp only [actionFlags]
    rw [if_neg h1, if_neg h2, if_neg h3, if_neg h4]
  simp [RubyWorker.run, hflags]

theorem claim_C9_unknown_action_witness :
    ("evaluate".toList : Str) ∉ (["eval".toList, "compile".toList, "syntax".toList,
      "syntax+prism".toList] : List Str) ∧
    RubyWorker.run ⟨[], 0⟩ ⟨[]⟩ [("main.rb".toList, "p 1".toList)] "main.rb".toList
        "evaluate".toList [] (fun _ _ _ => ⟨.ok (), ["1".toList], .ok ()⟩) =
      (⟨[], 0⟩, [], .error (.unknownAction "evaluate".toList)) :=
  ⟨by decide,
   claim_C9_unknown_action ⟨[], 0⟩ ⟨[]⟩ [("main.rb".toList, "p 1".toList)]
     "main.rb".toList "evaluate".toList []
     (fun _ _ _ => ⟨.ok (), ["1".toList], .ok ()⟩) (by decide)⟩
